import Mathlib

/-!
# Verification of `scripts/create_lmdb.py` (TecoGAN-PyTorch)

A shallow embedding of the LMDB dataset builder/verifier script.

Modelling conventions:
* Python strings are `List Char`; Python byte buffers are `List ℕ`.
* A decoded image (`cv2.imread`, an `h × w × 3` uint8 array) is a nested list
  `Frame := List (List (List ℕ))` (rows, then columns, then channels).
* The LMDB store is the list of `put` operations in program order; `storeGet`
  returns the value of the *last* put for a key (LMDB put overwrites).
* Side effects (file reads, opening the store, puts, commits, persisting the
  metadata pickle, verifier gets) are recorded as an explicit event trace.
* Python's `round` (banker's rounding, half-to-even) on the exact value
  `1.5 * nbytes` is modelled exactly on naturals by `pyRound15`.
-/

namespace CreateLmdb

/-- The decimal digit character for `d % 10`; `str(n)` in Python is built
from these. -/
def digitChar : ℕ → Char
  | 0 => '0' | 1 => '1' | 2 => '2' | 3 => '3' | 4 => '4'
  | 5 => '5' | 6 => '6' | 7 => '7' | 8 => '8' | _ => '9'

/-- Numeric value of a decimal digit character (`int` on a single char). -/
def digitVal (c : Char) : ℕ := c.toNat - 48

/-- Decimal digits of `n`, most significant first, with explicit fuel so the
definition is structural (the fuel `n + 1` always suffices). -/
def natDigitsAux : ℕ → ℕ → List Char
  | 0, _ => []
  | fuel + 1, n =>
    if n < 10 then [digitChar n]
    else natDigitsAux fuel (n / 10) ++ [digitChar (n % 10)]

/-- `str(n)` for a natural number: its decimal digit characters. -/
def natDigits (n : ℕ) : List Char := natDigitsAux (n + 1) n

/-- `int(s)` on a string of decimal digits. -/
def parseNat (s : List Char) : ℕ := s.foldl (fun a c => 10 * a + digitVal c) 0

/-- Python `f'{i:04d}'`: the decimal digits of `i`, left-padded with `'0'`
to width 4 (wider numbers are kept as is). -/
def pad4 (i : ℕ) : List Char :=
  List.replicate (4 - (natDigits i).length) '0' ++ natDigits i

/-- Python `s.split(sep)` for a single-character separator: the list of
chunks between occurrences of `sep` (`''.split(sep) == ['']`). -/
def splitOnChar (sep : Char) : List Char → List (List Char)
  | [] => [[]]
  | c :: cs =>
    if c = sep then [] :: splitOnChar sep cs
    else
      match splitOnChar sep cs with
      | [] => [[c]]
      | l :: ls => (c :: l) :: ls

/-- Python `sep.join(chunks)` for a single-character separator. -/
def joinSep (sep : Char) : List (List Char) → List Char
  | [] => []
  | [s] => s
  | s :: rest => s ++ sep :: joinSep sep rest

/-- A decoded frame: rows × columns × channels of byte values
(`cv2.imread(..., IMREAD_UNCHANGED)` on the dataset's PNGs gives an
`h × w × 3` uint8 array). -/
abbrev Frame := List (List (List ℕ))

/-- One sequence: its directory name and its decoded frames, in the sorted
order of `glob.glob(osp.join(raw_dir, seq_dir, '*.png'))`. -/
structure Sequence where
  name : List Char
  frames : List Frame
deriving DecidableEq

/-- `frm[..., ::-1]` (line 53): reverse the channel axis of every pixel
(BGR → RGB). -/
def revChannels (f : Frame) : Frame := f.map (fun row => row.map List.reverse)

/-- The raw byte buffer of a frame, row-major (what `txn.put` stores for a
contiguous numpy array). -/
def frameBytes (f : Frame) : List ℕ := f.flatten.flatten

/-- `frm.shape[0]`. -/
def shapeH (f : Frame) : ℕ := f.length

/-- `frm.shape[1]` (numpy arrays are rectangular; the width is the length of
the first row, `0` for an empty array). -/
def shapeW (f : Frame) : ℕ := (f.headD []).length

/-- The frame really is a rectangular `h × w × 3` array: every row has the
width of the first row and every pixel has 3 channels. This is automatic
for any value produced by the image decoder. -/
def isHWC3 (f : Frame) : Bool :=
  f.all (fun row => row.length == shapeW f && row.all (fun px => px.length == 3))

/-- The `{n_frm}x{h}x{w}` segment of a key. -/
def sizeSeg (n h w : ℕ) : List Char :=
  natDigits n ++ 'x' :: natDigits h ++ 'x' :: natDigits w

/-- Line 56: `key = f'{seq_dir}_{n_frm}x{h}x{w}_{i:04d}'`. -/
def mkKey (sid : List Char) (n h w i : ℕ) : List Char :=
  sid ++ '_' :: sizeSeg n h w ++ '_' :: pad4 i

/-- The result of the verifier's key parsing (lines 103-106). -/
structure ParsedKey where
  vid : List Char
  nFrm : ℕ
  h : ℕ
  w : ℕ
  frm : List Char
deriving DecidableEq

/-- Lines 103-106 of `check_lmdb`:
`key_lst = key.split('_')`;
`vid = '_'.join(key_lst[:-2])`; `sz = key_lst[-2]`; `frm = key_lst[-1]`
(Python negative indices count from the end, i.e. index into the reversed
list); `sz = tuple(map(int, sz.split('x')))`, whose three components are
the frame count, height and width. -/
def parseKey (key : List Char) : ParsedKey :=
  let parts := splitOnChar '_' key
  let rev := parts.reverse
  let nums := (splitOnChar 'x' (rev.getD 1 [])).map parseNat
  { vid := joinSep '_' (parts.dropLast.dropLast)
    nFrm := nums.getD 0 0
    h := nums.getD 1 0
    w := nums.getD 2 0
    frm := rev.getD 0 [] }

/-- `txn.get(key)` over the list of puts in program order: the value of the
last put with this key (a later `txn.put` overwrites an earlier one). -/
def storeGet : List (List Char × List ℕ) → List Char → Option (List ℕ)
  | [], _ => none
  | (k, v) :: rest, key =>
    match storeGet rest key with
    | some v' => some v'
    | none => if k = key then some v else none

/-- The inner loop of lines 51-58 for one sequence: for `i` in
`range(n_frm)`, decode frame `i`, reverse its channels, and put its bytes
under `mkKey seq_dir n_frm h w i` where `h, w` come from the (reversed)
frame's shape. `i0` is the running loop index, `sid`/`n` the sequence name
and frame count. -/
def seqPutsFrom (sid : List Char) (n : ℕ) : ℕ → List Frame → List (List Char × List ℕ)
  | _, [] => []
  | i, f :: rest =>
    let g := revChannels f
    (mkKey sid n (shapeH g) (shapeW g) i, frameBytes g) :: seqPutsFrom sid n (i + 1) rest

/-- All puts performed for one sequence, in order. -/
def seqPuts (s : Sequence) : List (List Char × List ℕ) :=
  seqPutsFrom s.name s.frames.length 0 s.frames

/-- The full store contents after `create_lmdb` (lines 40-65): every put of
every sequence, in processing order. -/
def buildStore (seqs : List Sequence) : List (List Char × List ℕ) :=
  (seqs.map seqPuts).flatten

/-- The `keys` list accumulated at line 58 and persisted in
`meta_info['keys']` (lines 69-73): one key per put, in processing order. -/
def buildKeys (seqs : List Sequence) : List (List Char) :=
  (buildStore seqs).map Prod.fst

/-- Observable side effects of the script, in program order. -/
inductive Event where
  | readFrame
  | openStore
  | put (key : List Char)
  | commit
  | persistMeta
  | get (key : List Char)
deriving DecidableEq

/-- The events of the inner frame loop (lines 51-58): each frame is read
(`cv2.imread`) and then written (`txn.put`). -/
def frameEvents : List (List Char × List ℕ) → List Event
  | [] => []
  | kv :: rest => Event.readFrame :: Event.put kv.1 :: frameEvents rest

/-- The write loop of lines 42-63, with running sequence index `b`: process
the sequence's frames, then `if b % commit_freq == 0: txn.commit()` with
`commit_freq = 5`. -/
def writeBlocks : ℕ → List Sequence → List Event
  | _, [] => []
  | b, s :: rest =>
    frameEvents (seqPuts s) ++ (if b % 5 = 0 then [Event.commit] else [])
      ++ writeBlocks (b + 1) rest

/-- The whole write phase (lines 39-73): the loop starting at `b = 0`, the
final `txn.commit()` (line 65), then the metadata pickle dump (line 73). -/
def writePhaseEvents (seqs : List Sequence) : List Event :=
  writeBlocks 0 seqs ++ [Event.commit, Event.persistMeta]

/-- The capacity-estimation loop of lines 27-31, returning its events and
`nbytes`. For each sequence it indexes `frm_path_lst[0]` — which raises
`IndexError` (`none`) on an empty sequence *before* any read — then reads
that first frame and adds `len(frm_path_lst) * nbytes_per_frm`. -/
def estimate : List Sequence → List Event × Option ℕ
  | [] => ([], some 0)
  | s :: rest =>
    match s.frames.head? with
    | none => ([], none)
    | some f =>
      let r := estimate rest
      (Event.readFrame :: r.1, r.2.map (fun m => s.frames.length * (frameBytes f).length + m))

/-- Python `round(1.5 * n)` for a natural `n`, i.e. `3*n/2` rounded
half-to-even (line 32, `alloc_size = round(1.5*nbytes)`). -/
def pyRound15 (n : ℕ) : ℕ :=
  if 3 * n % 2 = 0 then 3 * n / 2
  else if (3 * n / 2) % 2 = 0 then 3 * n / 2 else 3 * n / 2 + 1

/-- `nbytes` computed by lines 27-31 (`none` when a sequence has no frames). -/
def estimateNBytes (seqs : List Sequence) : Option ℕ := (estimate seqs).2

/-- `alloc_size` of line 32. -/
def allocSize (seqs : List Sequence) : Option ℕ := (estimateNBytes seqs).map pyRound15

/-- Total number of value bytes actually written to the store. -/
def actualBytes (seqs : List Sequence) : ℕ :=
  ((buildStore seqs).map (fun kv => kv.2.length)).sum

/-- Errors `create_lmdb` can raise. -/
inductive BuildError where
  | unsupportedDataset
  | indexError
deriving DecidableEq

/-- Line 14 / line 88: `dataset in ('VimeoTecoGAN', 'VimeoTecoGAN-sub')`. -/
def validDataset (d : String) : Bool :=
  d == "VimeoTecoGAN" || d == "VimeoTecoGAN-sub"

/-- `create_lmdb` (lines 13-73) as an event trace plus optional error:
the dataset assertion runs first (before any I/O); then the estimation
loop; only if it succeeds is the store opened (line 36) and the write
phase run. -/
def create_lmdb (d : String) (seqs : List Sequence) : List Event × Option BuildError :=
  if validDataset d then
    match estimate seqs with
    | (evs, none) => (evs, some BuildError.indexError)
    | (evs, some _) => (evs ++ Event.openStore :: writePhaseEvents seqs, none)
  else ([], some BuildError.unsupportedDataset)

/-- Errors `check_lmdb` can raise. -/
inductive VError where
  | unsupportedDataset
  | emptyKeyRange
  | missingKey
  | reshapeMismatch
deriving DecidableEq

/-- One iteration of the verifier loop (lines 98-113):
`random.randint(0, len(keys) - 1)` raises `ValueError` when `keys` is empty
(an empty range), *before* any store read; otherwise an in-range index is
drawn (modelled as `r % len(keys)`), the key parsed, `txn.get` performed,
and `np.frombuffer(buf).reshape(h, w, 3)` fails unless the buffer has
exactly `h * w * 3` bytes. -/
def checkIter (keys : List (List Char)) (store : List (List Char × List ℕ)) (r : ℕ) :
    List Event × Option VError :=
  if keys.length = 0 then ([], some VError.emptyKeyRange)
  else
    let key := keys.getD (r % keys.length) []
    let pk := parseKey key
    match storeGet store key with
    | none => ([Event.get key], some VError.missingKey)
    | some buf =>
      if buf.length = pk.h * pk.w * 3 then ([Event.get key], none)
      else ([Event.get key], some VError.reshapeMismatch)

/-- The verifier loop `for i in range(3)`, stopping at the first error. -/
def runIters (keys : List (List Char)) (store : List (List Char × List ℕ)) :
    List ℕ → List Event × Option VError
  | [] => ([], none)
  | r :: rs =>
    match checkIter keys store r with
    | (evs, some e) => (evs, some e)
    | (evs, none) =>
      let t := runIters keys store rs
      (evs ++ t.1, t.2)

/-- `check_lmdb` (lines 76-113): assert the dataset name, then run the
3-iteration sampling loop; `rand i` supplies iteration `i`'s raw random
draw. -/
def check_lmdb (d : String) (keys : List (List Char))
    (store : List (List Char × List ℕ)) (rand : ℕ → ℕ) : List Event × Option VError :=
  if validDataset d then runIters keys store ((List.range 3).map rand)
  else ([], some VError.unsupportedDataset)

/-- The two operations the driver can run. -/
inductive Action where
  | createLmdb
  | checkLmdb
deriving DecidableEq

/-- Lines 131-139: if the destination directory exists, only check;
otherwise create then check. The existence boolean is the only input
consulted. -/
def driverActions (lmdbExists : Bool) : List Action :=
  if lmdbExists then [Action.checkLmdb]
  else [Action.createLmdb, Action.checkLmdb]

/-- The driver's event trace (lines 131-139). -/
def driverTrace (lmdbExists : Bool) (d : String) (seqs : List Sequence)
    (keys : List (List Char)) (store : List (List Char × List ℕ))
    (rand : ℕ → ℕ) : List Event :=
  if lmdbExists then (check_lmdb d keys store rand).1
  else (create_lmdb d seqs).1 ++ (check_lmdb d keys store rand).1

/-- `True` exactly on events that write a key to the store. -/
def isPutEvent : Event → Bool
  | Event.put _ => true
  | _ => false

/-- A concrete 1×1×3 frame (3 bytes). -/
def demoFrame1 : Frame := [[[1, 2, 3]]]

/-- A concrete 2×2×3 frame (12 bytes). -/
def demoFrame2 : Frame := [[[4, 5, 6], [7, 8, 9]], [[10, 11, 12], [13, 14, 15]]]

/-- A single-frame sequence. -/
def demoSeq1 : Sequence := ⟨['c', 'l', 'i', 'p'], [demoFrame1]⟩

/-- A second sequence with a distinct name. -/
def demoSeq2 : Sequence := ⟨['c', 'l', 'i', 'p', '2'], [demoFrame2]⟩

/-- A concrete two-sequence dataset. -/
def demoSeqs : List Sequence := [demoSeq1, demoSeq2]

/-- A dataset whose single sequence mixes frames of different byte sizes
(frame 0 has 3 bytes, frame 1 has 12). -/
def hetSeqs : List Sequence := [⟨['a'], [demoFrame1, demoFrame2]⟩]

/-- A dataset containing a sequence directory with zero PNG files. -/
def emptySeqs : List Sequence := [⟨['e'], []⟩]

/- ## Decimal digits and number parsing -/

theorem digitVal_digitChar {d : ℕ} (h : d < 10) : digitVal (digitChar d) = d := by
  interval_cases d <;> rfl

theorem digitChar_ne_underscore (d : ℕ) : digitChar d ≠ '_' := by
  unfold digitChar; split <;> decide

theorem digitChar_ne_x (d : ℕ) : digitChar d ≠ 'x' := by
  unfold digitChar; split <;> decide

theorem natDigitsAux_foldl (fuel : ℕ) : ∀ n a, n < fuel →
    (natDigitsAux fuel n).foldl (fun a c => 10 * a + digitVal c) a
      = a * 10 ^ (natDigitsAux fuel n).length + n := by
  induction fuel with
  | zero => intro n a h; exact absurd h (Nat.not_lt_zero n)
  | succ fuel ih =>
    intro n a h
    by_cases h10 : n < 10
    · simp [natDigitsAux, h10, digitVal_digitChar h10]
      ring
    · have hd : n / 10 < fuel := by omega
      simp only [natDigitsAux, if_neg h10]
      rw [List.foldl_append, List.length_append, ih (n / 10) a hd]
      simp only [List.foldl_cons, List.foldl_nil, List.length_cons, List.length_nil,
        digitVal_digitChar (Nat.mod_lt n (by norm_num))]
      rw [Nat.mul_add, Nat.add_assoc, Nat.div_add_mod, pow_succ]
      ring

theorem parseNat_natDigits (n : ℕ) : parseNat (natDigits n) = n := by
  simpa [parseNat, natDigits] using natDigitsAux_foldl (n + 1) n 0 (Nat.lt_succ_self n)

theorem mem_natDigitsAux {fuel n : ℕ} {c : Char} (h : c ∈ natDigitsAux fuel n) :
    c ≠ '_' ∧ c ≠ 'x' := by
  induction fuel generalizing n with
  | zero => simp [natDigitsAux] at h
  | succ fuel ih =>
    by_cases h10 : n < 10
    · simp [natDigitsAux, h10] at h
      exact h ▸ ⟨digitChar_ne_underscore n, digitChar_ne_x n⟩
    · simp [natDigitsAux, h10] at h
      rcases h with h | h
      · exact ih h
      · exact h ▸ ⟨digitChar_ne_underscore _, digitChar_ne_x _⟩

theorem underscore_not_mem_natDigits (n : ℕ) : '_' ∉ natDigits n :=
  fun h => (mem_natDigitsAux h).1 rfl

theorem x_not_mem_natDigits (n : ℕ) : 'x' ∉ natDigits n :=
  fun h => (mem_natDigitsAux h).2 rfl

theorem underscore_not_mem_pad4 (i : ℕ) : '_' ∉ pad4 i := by
  intro h
  rcases List.mem_append.1 h with h | h
  · exact absurd (List.eq_of_mem_replicate h) (by decide)
  · exact (mem_natDigitsAux h).1 rfl

theorem underscore_not_mem_sizeSeg (n h w : ℕ) : '_' ∉ sizeSeg n h w := by
  intro hm
  unfold sizeSeg at hm
  rcases List.mem_append.1 hm with h1 | h1
  · rcases List.mem_append.1 h1 with h2 | h2
    · exact (mem_natDigitsAux h2).1 rfl
    · rcases List.mem_cons.1 h2 with h3 | h3
      · exact absurd h3 (by decide)
      · exact (mem_natDigitsAux h3).1 rfl
  · rcases List.mem_cons.1 h1 with h2 | h2
    · exact absurd h2 (by decide)
    · exact (mem_natDigitsAux h2).1 rfl

theorem foldl_replicate_zero (k : ℕ) :
    (List.replicate k '0').foldl (fun a c => 10 * a + digitVal c) 0 = 0 := by
  induction k with
  | zero => rfl
  | succ k ih =>
    rw [List.replicate_succ, List.foldl_cons]
    simpa using ih

theorem parseNat_pad4 (i : ℕ) : parseNat (pad4 i) = i := by
  unfold parseNat pad4
  rw [List.foldl_append, foldl_replicate_zero]
  exact parseNat_natDigits i

/- ## Python `str.split` / `str.join` -/

theorem splitOnChar_ne_nil (sep : Char) (l : List Char) : splitOnChar sep l ≠ [] := by
  induction l with
  | nil => simp [splitOnChar]
  | cons c cs ih =>
    by_cases hc : c = sep
    · simp [splitOnChar, hc]
    · cases h : splitOnChar sep cs with
      | nil => exact absurd h ih
      | cons l ls => simp [splitOnChar, hc, h]

theorem splitOnChar_append (sep : Char) (xs ys : List Char) :
    splitOnChar sep (xs ++ sep :: ys) = splitOnChar sep xs ++ splitOnChar sep ys := by
  induction xs with
  | nil => simp [splitOnChar]
  | cons c cs ih =>
    by_cases hc : c = sep
    · subst hc
      simp [splitOnChar, ih]
    · cases h : splitOnChar sep cs with
      | nil => exact absurd h (splitOnChar_ne_nil sep cs)
      | cons l ls =>
        have hl : splitOnChar sep (cs ++ sep :: ys) = l :: (ls ++ splitOnChar sep ys) := by
          rw [ih, h]; simp
        simp [splitOnChar, hc, h, hl]

theorem splitOnChar_of_not_mem {sep : Char} {l : List Char} (h : sep ∉ l) :
    splitOnChar sep l = [l] := by
  induction l with
  | nil => rfl
  | cons c cs ih =>
    have hc : ¬(c = sep) := fun e => h (e ▸ List.mem_cons_self c cs)
    have hcs : sep ∉ cs := fun m => h (List.mem_cons_of_mem _ m)
    simp [splitOnChar, hc, ih hcs]

theorem joinSep_splitOnChar (sep : Char) (l : List Char) :
    joinSep sep (splitOnChar sep l) = l := by
  induction l with
  | nil => rfl
  | cons c cs ih =>
    by_cases hc : c = sep
    · cases h : splitOnChar sep cs with
      | nil => exact absurd h (splitOnChar_ne_nil sep cs)
      | cons l' ls' =>
        have ih' : joinSep sep (l' :: ls') = cs := by rw [← h]; exact ih
        simp [splitOnChar, hc, h, joinSep, ih']
    · cases h : splitOnChar sep cs with
      | nil => exact absurd h (splitOnChar_ne_nil sep cs)
      | cons l' ls' =>
        have ih' : joinSep sep (l' :: ls') = cs := by rw [← h]; exact ih
        cases ls' with
        | nil =>
          simp only [joinSep] at ih'
          simp [splitOnChar, hc, h, joinSep, ih']
        | cons l2 ls2 =>
          simp only [joinSep] at ih'
          have hgoal : joinSep sep (splitOnChar sep (c :: cs))
              = (c :: l') ++ sep :: joinSep sep (l2 :: ls2) := by
            simp [splitOnChar, hc, h, joinSep]
          rw [hgoal, List.cons_append, ih']

/- ## Key encode/parse round-trip -/

theorem splitOnChar_mkKey (sid : List Char) (n h w i : ℕ) :
    splitOnChar '_' (mkKey sid n h w i)
      = splitOnChar '_' sid ++ [sizeSeg n h w, pad4 i] := by
  unfold mkKey
  rw [splitOnChar_append, splitOnChar_append,
    splitOnChar_of_not_mem (underscore_not_mem_sizeSeg n h w),
    splitOnChar_of_not_mem (underscore_not_mem_pad4 i)]
  simp

theorem splitOnChar_x_sizeSeg (n h w : ℕ) :
    splitOnChar 'x' (sizeSeg n h w) = [natDigits n, natDigits h, natDigits w] := by
  unfold sizeSeg
  rw [splitOnChar_append, splitOnChar_append,
    splitOnChar_of_not_mem (x_not_mem_natDigits n),
    splitOnChar_of_not_mem (x_not_mem_natDigits h),
    splitOnChar_of_not_mem (x_not_mem_natDigits w)]
  simp

theorem parseKey_mkKey (sid : List Char) (n h w i : ℕ) :
    parseKey (mkKey sid n h w i) = ⟨sid, n, h, w, pad4 i⟩ := by
  unfold parseKey
  rw [splitOnChar_mkKey]
  have hdrop : (splitOnChar '_' sid ++ [sizeSeg n h w, pad4 i]).dropLast.dropLast
      = splitOnChar '_' sid := by
    rw [show splitOnChar '_' sid ++ [sizeSeg n h w, pad4 i]
        = (splitOnChar '_' sid ++ [sizeSeg n h w]) ++ [pad4 i] by simp]
    rw [List.dropLast_concat, List.dropLast_concat]
  simp [hdrop, List.reverse_append, joinSep_splitOnChar, splitOnChar_x_sizeSeg,
    parseNat_natDigits]

theorem mkKey_inj {sid₁ sid₂ : List Char} {n₁ h₁ w₁ i₁ n₂ h₂ w₂ i₂ : ℕ}
    (he : mkKey sid₁ n₁ h₁ w₁ i₁ = mkKey sid₂ n₂ h₂ w₂ i₂) :
    sid₁ = sid₂ ∧ n₁ = n₂ ∧ h₁ = h₂ ∧ w₁ = w₂ ∧ i₁ = i₂ := by
  have hp := congrArg parseKey he
  rw [parseKey_mkKey, parseKey_mkKey] at hp
  simp only [ParsedKey.mk.injEq] at hp
  obtain ⟨ha, hb, hc, hd, hpad⟩ := hp
  have hi : i₁ = i₂ := by
    have := congrArg parseNat hpad
    rwa [parseNat_pad4, parseNat_pad4] at this
  exact ⟨ha, hb, hc, hd, hi⟩

/- ## Store lookup -/

theorem storeGet_eq_none {l : List (List Char × List ℕ)} {k : List Char}
    (h : k ∉ l.map Prod.fst) : storeGet l k = none := by
  induction l with
  | nil => rfl
  | cons p rest ih =>
    simp only [List.map_cons, List.mem_cons] at h
    push_neg at h
    cases p with
    | mk a b =>
      simp only [storeGet, ih h.2]
      exact if_neg (fun e => h.1 e.symm)

theorem storeGet_of_nodup {l : List (List Char × List ℕ)}
    (hn : (l.map Prod.fst).Nodup) {kv : List Char × List ℕ} (hm : kv ∈ l) :
    storeGet l kv.1 = some kv.2 := by
  induction l with
  | nil => cases hm
  | cons p rest ih =>
    simp only [List.map_cons, List.nodup_cons] at hn
    obtain ⟨hp, hrest⟩ := hn
    rcases List.mem_cons.1 hm with he | hm'
    · subst he
      cases kv with
      | mk a b =>
        have : a ∉ rest.map Prod.fst := hp
        simp [storeGet, storeGet_eq_none this]
    · cases p with
      | mk a b => simp [storeGet, ih hrest hm']

/- ## The builder's keys are distinct -/

theorem mem_seqPutsFrom {sid : List Char} {n : ℕ} {fs : List Frame} :
    ∀ {i0 : ℕ} {k : List Char}, k ∈ (seqPutsFrom sid n i0 fs).map Prod.fst →
      (parseKey k).vid = sid ∧ i0 ≤ parseNat (parseKey k).frm ∧
        parseNat (parseKey k).frm < i0 + fs.length := by
  induction fs with
  | nil => intro i0 k h; simp [seqPutsFrom] at h
  | cons f rest ih =>
    intro i0 k h
    simp only [seqPutsFrom, List.map_cons, List.mem_cons] at h
    rcases h with h | h
    · subst h
      rw [parseKey_mkKey]
      simp only [parseNat_pad4, List.length_cons]
      exact ⟨trivial, le_refl i0, by omega⟩
    · obtain ⟨hv, hlo, hhi⟩ := ih h
      refine ⟨hv, by omega, ?_⟩
      simp only [List.length_cons]
      omega

theorem nodup_seqPutsFrom_keys (sid : List Char) (n : ℕ) (fs : List Frame) :
    ∀ i0, ((seqPutsFrom sid n i0 fs).map Prod.fst).Nodup := by
  induction fs with
  | nil => intro i0; simp [seqPutsFrom]
  | cons f rest ih =>
    intro i0
    simp only [seqPutsFrom, List.map_cons, List.nodup_cons]
    refine ⟨fun hmem => ?_, ih (i0 + 1)⟩
    obtain ⟨_, hlo, _⟩ := mem_seqPutsFrom hmem
    rw [parseKey_mkKey] at hlo
    simp [parseNat_pad4] at hlo

theorem buildKeys_eq (seqs : List Sequence) :
    buildKeys seqs = (seqs.map (fun s => (seqPuts s).map Prod.fst)).flatten := by
  unfold buildKeys buildStore
  rw [List.map_flatten, List.map_map]
  rfl

theorem pairwise_name_ne {seqs : List Sequence}
    (hn : (seqs.map Sequence.name).Nodup) :
    seqs.Pairwise (fun s t => s.name ≠ t.name) := by
  have : (seqs.map Sequence.name).Pairwise (· ≠ ·) := hn
  exact List.pairwise_map.mp this

theorem nodup_buildKeys {seqs : List Sequence}
    (hn : (seqs.map Sequence.name).Nodup) : (buildKeys seqs).Nodup := by
  rw [buildKeys_eq, List.nodup_flatten]
  constructor
  · intro l hl
    simp only [List.mem_map] at hl
    obtain ⟨s, _, rfl⟩ := hl
    exact nodup_seqPutsFrom_keys s.name s.frames.length s.frames 0
  · rw [List.pairwise_map]
    refine (pairwise_name_ne hn).imp ?_
    intro s t hne k hks hkt
    have h1 := (mem_seqPutsFrom hks).1
    have h2 := (mem_seqPutsFrom hkt).1
    exact hne (h1 ▸ h2 ▸ rfl)

/- ## Frame shapes and byte counts -/

theorem sum_map_const {α : Type} {l : List α} {g : α → ℕ} {c : ℕ}
    (h : ∀ x ∈ l, g x = c) : (l.map g).sum = l.length * c := by
  induction l with
  | nil => simp
  | cons x xs ih =>
    simp only [List.map_cons, List.sum_cons, List.length_cons]
    rw [h x (List.mem_cons_self x xs), ih (fun y hy => h y (List.mem_cons_of_mem x hy))]
    ring

theorem isHWC3_spec {f : Frame} (h : isHWC3 f = true) :
    ∀ row ∈ f, row.length = shapeW f ∧ ∀ px ∈ row, px.length = 3 := by
  intro row hrow
  simp only [isHWC3, List.all_eq_true, Bool.and_eq_true, beq_iff_eq] at h
  obtain ⟨h1, h2⟩ := h row hrow
  exact ⟨h1, fun px hpx => h2 px hpx⟩

theorem frameBytes_length_of_isHWC3 {f : Frame} (h : isHWC3 f = true) :
    (frameBytes f).length = shapeH f * shapeW f * 3 := by
  have hpx : ∀ px ∈ f.flatten, px.length = 3 := by
    intro px hpx
    obtain ⟨row, hrow, hmem⟩ := List.mem_flatten.1 hpx
    exact ((isHWC3_spec h) row hrow).2 px hmem
  have hrow : ∀ row ∈ f, row.length = shapeW f := fun row hr => ((isHWC3_spec h) row hr).1
  unfold frameBytes
  rw [List.length_flatten, sum_map_const hpx, List.length_flatten, sum_map_const hrow]
  rfl

theorem shapeH_revChannels (f : Frame) : shapeH (revChannels f) = shapeH f := by
  simp [shapeH, revChannels]

theorem shapeW_revChannels (f : Frame) : shapeW (revChannels f) = shapeW f := by
  cases f with
  | nil => rfl
  | cons r t => simp [shapeW, revChannels]

theorem isHWC3_revChannels {f : Frame} (h : isHWC3 f = true) :
    isHWC3 (revChannels f) = true := by
  simp only [isHWC3, List.all_eq_true, Bool.and_eq_true, beq_iff_eq]
  intro row hrow
  obtain ⟨r, hr, rfl⟩ := List.mem_map.1 hrow
  obtain ⟨h1, h2⟩ := (isHWC3_spec h) r hr
  refine ⟨by simpa [shapeW_revChannels] using h1, ?_⟩
  intro px hpx
  obtain ⟨p, hp, rfl⟩ := List.mem_map.1 hpx
  simpa using h2 p hp

theorem frameBytes_revChannels_length (f : Frame) :
    (frameBytes (revChannels f)).length = (frameBytes f).length := by
  unfold frameBytes revChannels
  rw [← List.map_flatten]
  rw [List.length_flatten, List.length_flatten, List.map_map]
  congr 1
  exact List.map_congr_left (fun px _ => by simp)

/- ## Lengths and sums over the builder's output -/

theorem length_seqPutsFrom (sid : List Char) (n : ℕ) (fs : List Frame) :
    ∀ i0, (seqPutsFrom sid n i0 fs).length = fs.length := by
  induction fs with
  | nil => intro i0; rfl
  | cons f rest ih => intro i0; simp [seqPutsFrom, ih]

theorem length_buildKeys (seqs : List Sequence) :
    (buildKeys seqs).length = (seqs.map (fun s => s.frames.length)).sum := by
  unfold buildKeys buildStore
  rw [List.length_map, List.length_flatten, List.map_map]
  congr 1
  exact List.map_congr_left
    (fun s _ => length_seqPutsFrom s.name s.frames.length s.frames 0)

theorem sum_val_seqPutsFrom (sid : List Char) (n : ℕ) (fs : List Frame) :
    ∀ i0, ((seqPutsFrom sid n i0 fs).map (fun kv => kv.2.length)).sum
      = (fs.map (fun f => (frameBytes f).length)).sum := by
  induction fs with
  | nil => intro i0; rfl
  | cons f rest ih =>
    intro i0
    simp only [seqPutsFrom, List.map_cons, List.sum_cons, ih]
    rw [frameBytes_revChannels_length]

theorem actualBytes_cons (s : Sequence) (rest : List Sequence) :
    actualBytes (s :: rest)
      = ((seqPuts s).map (fun kv => kv.2.length)).sum + actualBytes rest := by
  simp [actualBytes, buildStore]

theorem mem_seqPutsFrom_val {sid : List Char} {n : ℕ} {fs : List Frame} :
    ∀ {i0 : ℕ} {kv : List Char × List ℕ}, kv ∈ seqPutsFrom sid n i0 fs →
      ∃ i f, f ∈ fs ∧
        kv = (mkKey sid n (shapeH (revChannels f)) (shapeW (revChannels f)) i,
          frameBytes (revChannels f)) := by
  induction fs with
  | nil => intro i0 kv h; simp [seqPutsFrom] at h
  | cons f rest ih =>
    intro i0 kv h
    rcases List.mem_cons.1 h with he | hm
    · exact ⟨i0, f, List.mem_cons_self f rest, he⟩
    · obtain ⟨i, f', hf', he⟩ := ih hm
      exact ⟨i, f', List.mem_cons_of_mem f hf', he⟩

theorem mem_buildStore {seqs : List Sequence} {kv : List Char × List ℕ}
    (h : kv ∈ buildStore seqs) : ∃ s ∈ seqs, kv ∈ seqPuts s := by
  unfold buildStore at h
  obtain ⟨l, hl, hmem⟩ := List.mem_flatten.1 h
  obtain ⟨s, hs, rfl⟩ := List.mem_map.1 hl
  exact ⟨s, hs, hmem⟩

/- ## Capacity estimation -/

theorem estimate_none_iff (seqs : List Sequence) :
    (estimate seqs).2 = none ↔ ∃ s ∈ seqs, s.frames = [] := by
  induction seqs with
  | nil => simp [estimate]
  | cons s rest ih =>
    cases hh : s.frames.head? with
    | none =>
      simp only [estimate, hh]
      simp only [List.head?_eq_none_iff] at hh
      simp [hh]
    | some f =>
      simp only [estimate, hh]
      have hne : s.frames ≠ [] := by
        intro e; rw [e] at hh; cases hh
      constructor
      · intro h
        obtain ⟨t, ht, he⟩ := ih.1 (by
          rcases h2 : (estimate rest).2 with _ | m
          · rfl
          · rw [h2] at h; simp at h)
        exact ⟨t, List.mem_cons_of_mem s ht, he⟩
      · rintro ⟨t, ht, he⟩
        rcases List.mem_cons.1 ht with rfl | ht'
        · exact absurd he hne
        · have := ih.2 ⟨t, ht', he⟩
          simp [this]

theorem estimate_some_homog {seqs : List Sequence} {nb : ℕ}
    (h : (estimate seqs).2 = some nb)
    (hhom : ∀ s ∈ seqs, ∀ f ∈ s.frames,
      (frameBytes f).length = (frameBytes (s.frames.headD [])).length) :
    actualBytes seqs = nb := by
  induction seqs generalizing nb with
  | nil =>
    simp only [estimate] at h
    cases h
    rfl
  | cons s rest ih =>
    cases hh : s.frames.head? with
    | none => simp only [estimate, hh] at h; cases h
    | some f =>
      simp only [estimate, hh] at h
      rcases h2 : (estimate rest).2 with _ | m
      · rw [h2] at h; cases h
      · rw [h2] at h
        simp only [Option.map_some'] at h
        obtain rfl : s.frames.length * (frameBytes f).length + m = nb := by
          injection h
        have hd : s.frames.headD [] = f := by
          rw [List.headD_eq_head?, hh]
          rfl
        rw [actualBytes_cons,
          ih h2 (fun t ht f' hf' => hhom t (List.mem_cons_of_mem s ht) f' hf')]
        unfold seqPuts
        rw [sum_val_seqPutsFrom,
          sum_map_const (fun f' hf' => by rw [hhom s (List.mem_cons_self s rest) f' hf', hd])]

theorem le_pyRound15 (n : ℕ) : n ≤ pyRound15 n := by
  unfold pyRound15
  split
  · omega
  · split <;> omega

theorem estimate_events_readFrame (seqs : List Sequence) :
    ∀ e ∈ (estimate seqs).1, e = Event.readFrame := by
  induction seqs with
  | nil => intro e h; simp [estimate] at h
  | cons s rest ih =>
    intro e h
    cases hh : s.frames.head? with
    | none => simp only [estimate, hh] at h; simp at h
    | some f =>
      simp only [estimate, hh] at h
      rcases List.mem_cons.1 h with rfl | h'
      · rfl
      · exact ih e h'

/- ## Commit schedule -/

theorem count_commit_frameEvents (l : List (List Char × List ℕ)) :
    (frameEvents l).count Event.commit = 0 := by
  induction l with
  | nil => rfl
  | cons kv rest ih => simp [frameEvents, List.count_cons, ih]

theorem count_range_mod5 (n : ℕ) :
    ((List.range n).filter (fun k => k % 5 == 0)).length = (n + 4) / 5 := by
  induction n with
  | zero => rfl
  | succ n ih =>
    rw [List.range_succ, List.filter_append, List.length_append, ih]
    by_cases h : n % 5 = 0
    · simp only [List.filter_cons, List.filter_nil]
      rw [if_pos (by simpa using h)]
      simp only [List.length_cons, List.length_nil]
      omega
    · simp only [List.filter_cons, List.filter_nil]
      rw [if_neg (by simpa using h)]
      simp only [List.length_nil]
      omega

theorem count_commit_writeBlocks (seqs : List Sequence) :
    ∀ b, (writeBlocks b seqs).count Event.commit
      = ((List.range seqs.length).filter (fun k => (b + k) % 5 == 0)).length := by
  induction seqs with
  | nil => intro b; rfl
  | cons s rest ih =>
    intro b
    simp only [writeBlocks, List.count_append, count_commit_frameEvents,
      List.length_cons]
    rw [List.range_succ_eq_map, List.filter_cons, List.filter_map, ih (b + 1)]
    have hcong : ∀ k ∈ List.range rest.length,
        ((fun k => (b + k) % 5 == 0) ∘ (· + 1)) k = (fun k => (b + 1 + k) % 5 == 0) k := by
      intro k _
      simp only [Function.comp_apply]
      rw [show b + (k + 1) = b + 1 + k by omega]
    rw [List.filter_congr hcong]
    by_cases hb : b % 5 = 0
    · rw [if_pos hb, if_pos (show ((b + 0) % 5 == 0) = true by simpa using hb)]
      simp only [List.length_cons, List.length_map]
      have hc : List.count Event.commit [Event.commit] = 1 := by decide
      rw [hc]
      omega
    · rw [if_neg hb, if_neg (show ¬(((b + 0) % 5 == 0) = true) by simpa using hb)]
      simp only [List.length_map, List.count_nil]
      omega

theorem count_commit_writePhase (seqs : List Sequence) :
    (writePhaseEvents seqs).count Event.commit = (seqs.length + 4) / 5 + 1 := by
  unfold writePhaseEvents
  rw [List.count_append, count_commit_writeBlocks seqs 0]
  have hz : (fun k => (0 + k) % 5 == 0) = (fun k => k % 5 == 0) := by
    funext k
    rw [Nat.zero_add]
  rw [hz, count_range_mod5]
  have : [Event.commit, Event.persistMeta].count Event.commit = 1 := by decide
  rw [this]

theorem writePhase_put_lt {seqs : List Sequence} {i : ℕ} {k : List Char}
    (h : (writePhaseEvents seqs)[i]? = some (Event.put k)) :
    i < (writeBlocks 0 seqs).length := by
  by_contra hge
  push_neg at hge
  rw [writePhaseEvents, List.getElem?_append_right hge] at h
  rcases hd : i - (writeBlocks 0 seqs).length with _ | d
  · rw [hd] at h; simp at h
  · rw [hd] at h
    rcases d with _ | d' <;> simp at h

theorem writePhase_put_covered {seqs : List Sequence} {i : ℕ} {k : List Char}
    (h : (writePhaseEvents seqs)[i]? = some (Event.put k)) :
    ∃ j, i < j ∧ j + 1 < (writePhaseEvents seqs).length ∧
      (writePhaseEvents seqs)[j]? = some Event.commit := by
  refine ⟨(writeBlocks 0 seqs).length, writePhase_put_lt h, ?_, ?_⟩
  · rw [writePhaseEvents, List.length_append]
    simp
  · rw [writePhaseEvents, List.getElem?_append_right (le_refl _)]
    simp

theorem writePhase_getLast (seqs : List Sequence) :
    (writePhaseEvents seqs).getLast? = some Event.persistMeta := by
  unfold writePhaseEvents
  rw [show writeBlocks 0 seqs ++ [Event.commit, Event.persistMeta]
      = (writeBlocks 0 seqs ++ [Event.commit]) ++ [Event.persistMeta] by simp]
  exact List.getLast?_concat _

/- ## Verifier traces -/

theorem countP_put_checkIter (keys : List (List Char))
    (store : List (List Char × List ℕ)) (r : ℕ) :
    ((checkIter keys store r).1).countP isPutEvent = 0 := by
  unfold checkIter
  split
  · rfl
  · dsimp only
    split
    · rfl
    · split <;> rfl

theorem countP_put_runIters (keys : List (List Char))
    (store : List (List Char × List ℕ)) :
    ∀ rs, ((runIters keys store rs).1).countP isPutEvent = 0 := by
  intro rs
  induction rs with
  | nil => rfl
  | cons r rs ih =>
    rcases hci : checkIter keys store r with ⟨evs, err⟩
    have hevs : evs.countP isPutEvent = 0 := by
      have h0 := countP_put_checkIter keys store r
      rw [hci] at h0
      exact h0
    simp only [runIters, hci]
    cases err
    · simp [List.countP_append, hevs, ih]
    · simpa using hevs

theorem countP_put_check_lmdb (d : String) (keys : List (List Char))
    (store : List (List Char × List ℕ)) (rand : ℕ → ℕ) :
    ((check_lmdb d keys store rand).1).countP isPutEvent = 0 := by
  unfold check_lmdb
  split
  · exact countP_put_runIters keys store _
  · rfl

theorem runIters_empty (store : List (List Char × List ℕ)) (r : ℕ) (rs : List ℕ) :
    runIters [] store (r :: rs) = ([], some VError.emptyKeyRange) := by
  simp [runIters, checkIter]

/- ## Channel reversal is an involution -/

theorem revChannels_revChannels (f : Frame) : revChannels (revChannels f) = f := by
  simp [revChannels, List.map_map, Function.comp_def, List.reverse_reverse]

theorem check_lmdb_nil_keys (d : String) (store : List (List Char × List ℕ))
    (rand : ℕ → ℕ) (hv : validDataset d = true) :
    check_lmdb d [] store rand = ([], some VError.emptyKeyRange) := by
  unfold check_lmdb
  rw [hv]
  have h3 : (List.range 3).map rand = rand 0 :: [rand 1, rand 2] := rfl
  rw [if_pos rfl, h3, runIters_empty]

/- ## The claims -/

/-- Claim C1: round-trip of a frame through the store. Every (key, value)
pair the builder writes is returned byte-identically by a store get on its
key (for any run whose sequence directory names are distinct, as directory
listings are), and the channel-order reversal applied at write time is its
own inverse on any frame array. -/
theorem c1_store_roundtrip :
    (∀ seqs : List Sequence, (seqs.map Sequence.name).Nodup →
      ∀ kv ∈ buildStore seqs, storeGet (buildStore seqs) kv.1 = some kv.2)
  ∧ (∀ f : Frame, revChannels (revChannels f) = f) := by
  constructor
  · intro seqs hn kv hm
    exact storeGet_of_nodup (nodup_buildKeys hn) hm
  · exact revChannels_revChannels

theorem c1_store_roundtrip_witness :
    storeGet (buildStore demoSeqs) (mkKey ['c', 'l', 'i', 'p'] 1 1 1 0)
      = some [3, 2, 1] :=
  c1_store_roundtrip.1 demoSeqs (by decide)
    (mkKey ['c', 'l', 'i', 'p'] 1 1 1 0, [3, 2, 1]) (by decide)

/-- Claim C2: key-format round-trip. For every sequence id (underscores
allowed), frame count, height, width and frame index, parsing the builder's
key with the verifier's rule recovers the sequence id, the three size
components, and the frame-index segment, which decodes back to the
original index. -/
theorem c2_key_roundtrip (sid : List Char) (n h w i : ℕ) :
    parseKey (mkKey sid n h w i) = ⟨sid, n, h, w, pad4 i⟩ ∧ parseNat (pad4 i) = i :=
  ⟨parseKey_mkKey sid n h w i, parseNat_pad4 i⟩

/-- Claim C3: shape invariant. For every run over rectangular h×w×3 frames
(which is what the image decoder produces), every entry written by the
builder satisfies `len(value) = h * w * 3` for the height and width encoded
in its key. -/
theorem c3_shape_invariant (seqs : List Sequence)
    (hwf : ∀ s ∈ seqs, ∀ f ∈ s.frames, isHWC3 f = true) :
    ∀ kv ∈ buildStore seqs,
      kv.2.length = (parseKey kv.1).h * (parseKey kv.1).w * 3 := by
  intro kv hm
  obtain ⟨s, hs, hmem⟩ := mem_buildStore hm
  obtain ⟨i, f, hf, rfl⟩ := mem_seqPutsFrom_val hmem
  rw [parseKey_mkKey]
  exact frameBytes_length_of_isHWC3 (isHWC3_revChannels (hwf s hs f hf))

theorem c3_shape_invariant_witness :
    (frameBytes (revChannels demoFrame1)).length
      = (parseKey (mkKey ['c', 'l', 'i', 'p'] 1 1 1 0)).h
        * (parseKey (mkKey ['c', 'l', 'i', 'p'] 1 1 1 0)).w * 3 :=
  c3_shape_invariant demoSeqs (by decide)
    (mkKey ['c', 'l', 'i', 'p'] 1 1 1 0, frameBytes (revChannels demoFrame1))
    (by decide)

/-- Claim C4: the metadata key list has exactly one key per frame in
processing order, so its length is the sum of the frame counts; a
single-frame sequence contributes exactly one key, whose index segment is
`"0000"`. -/
theorem c4_key_count :
    (∀ seqs : List Sequence,
      (buildKeys seqs).length = (seqs.map (fun s => s.frames.length)).sum)
  ∧ (∀ (s : Sequence) (f : Frame), s.frames = [f] →
      buildKeys [s]
        = [mkKey s.name 1 (shapeH (revChannels f)) (shapeW (revChannels f)) 0]
      ∧ pad4 0 = ['0', '0', '0', '0']) := by
  refine ⟨length_buildKeys, fun s f hf => ⟨?_, rfl⟩⟩
  simp [buildKeys, buildStore, seqPuts, hf, seqPutsFrom]

theorem c4_key_count_witness :
    buildKeys [demoSeq1]
      = [mkKey ['c', 'l', 'i', 'p'] 1 (shapeH (revChannels demoFrame1))
          (shapeW (revChannels demoFrame1)) 0]
    ∧ pad4 0 = ['0', '0', '0', '0'] :=
  c4_key_count.2 demoSeq1 demoFrame1 rfl

/-- Claim C5: re-run idempotence. When the destination store directory
already exists the driver runs only the verifier, never the builder, and
its trace contains zero store writes; the existence boolean is the only
condition consulted. -/
theorem c5_rerun_idempotence :
    (driverActions true = [Action.checkLmdb])
  ∧ ((driverActions true).count Action.createLmdb = 0)
  ∧ (∀ b : Bool, driverActions b
      = if b then [Action.checkLmdb] else [Action.createLmdb, Action.checkLmdb])
  ∧ (∀ (d : String) (seqs : List Sequence) (keys : List (List Char))
      (store : List (List Char × List ℕ)) (rand : ℕ → ℕ),
      driverTrace true d seqs keys store rand = (check_lmdb d keys store rand).1)
  ∧ (∀ (d : String) (seqs : List Sequence) (keys : List (List Char))
      (store : List (List Char × List ℕ)) (rand : ℕ → ℕ),
      ((driverTrace true d seqs keys store rand).countP isPutEvent) = 0) := by
  refine ⟨rfl, rfl, fun b => rfl, fun d seqs keys store rand => rfl,
    fun d seqs keys store rand => ?_⟩
  exact countP_put_check_lmdb d keys store rand

/-- Claim C6: for any dataset identifier other than the two recognized
values, the builder errors immediately with an empty event trace (no file
read, no store opened, no key written); for the two recognized values this
error is never raised. -/
theorem c6_unsupported_dataset :
    (∀ (d : String) (seqs : List Sequence), validDataset d = false →
      create_lmdb d seqs = ([], some BuildError.unsupportedDataset))
  ∧ (∀ (d : String) (seqs : List Sequence), validDataset d = true →
      (create_lmdb d seqs).2 ≠ some BuildError.unsupportedDataset) := by
  constructor
  · intro d seqs hv
    simp [create_lmdb, hv]
  · intro d seqs hv
    simp only [create_lmdb, hv, if_true]
    rcases he : estimate seqs with ⟨evs, r⟩
    cases r <;> simp

theorem c6_unsupported_dataset_witness :
    create_lmdb "GoPro" [] = ([], some BuildError.unsupportedDataset)
    ∧ (create_lmdb "VimeoTecoGAN" []).2 ≠ some BuildError.unsupportedDataset :=
  ⟨c6_unsupported_dataset.1 "GoPro" [] (by decide),
    c6_unsupported_dataset.2 "VimeoTecoGAN" [] (by decide)⟩

/-- Claim C7 (counterexample): with one sequence whose first frame has 3
bytes but whose second frame has 12, the computed allocation size is 9
while 15 value bytes are written, so the allocation is *not* always an
upper bound on the bytes written. -/
theorem c7_capacity_counterexample :
    allocSize hetSeqs = some 9 ∧ actualBytes hetSeqs = 15
    ∧ ¬(actualBytes hetSeqs ≤ (allocSize hetSeqs).getD 0) := by
  refine ⟨by decide, by decide, by decide⟩

/-- Claim C7 (amended): whenever every frame of each sequence has the same
byte size as that sequence's first frame — the uniformity the estimation
step assumes — the computed allocation size `round(1.5 * nbytes)` is at
least the total number of value bytes written. -/
theorem c7_capacity_bound {seqs : List Sequence} {nb : ℕ}
    (h : estimateNBytes seqs = some nb)
    (hhom : ∀ s ∈ seqs, ∀ f ∈ s.frames,
      (frameBytes f).length = (frameBytes (s.frames.headD [])).length) :
    actualBytes seqs ≤ pyRound15 nb ∧ allocSize seqs = some (pyRound15 nb) := by
  constructor
  · rw [estimate_some_homog h hhom]
    exact le_pyRound15 nb
  · simp [allocSize, h]

theorem c7_capacity_bound_witness :
    actualBytes [demoSeq1] ≤ pyRound15 3
    ∧ allocSize [demoSeq1] = some (pyRound15 3) :=
  c7_capacity_bound (by decide) (by decide)

/-- Claim C8: commit schedule. The write phase performs one commit after
every fifth sequence (those with loop index ≡ 0 mod 5, i.e. ⌈n/5⌉ in-loop
commits for n sequences) plus one final commit; the metadata record is
persisted last; and every written key is followed by a commit that happens
strictly before the metadata record is persisted. -/
theorem c8_commit_schedule (seqs : List Sequence) :
    ((writePhaseEvents seqs).count Event.commit = (seqs.length + 4) / 5 + 1)
  ∧ ((writePhaseEvents seqs).getLast? = some Event.persistMeta)
  ∧ (∀ i k, (writePhaseEvents seqs)[i]? = some (Event.put k) →
      ∃ j, i < j ∧ j + 1 < (writePhaseEvents seqs).length ∧
        (writePhaseEvents seqs)[j]? = some Event.commit) :=
  ⟨count_commit_writePhase seqs, writePhase_getLast seqs,
    fun _ _ h => writePhase_put_covered h⟩

theorem c8_commit_schedule_witness :
    ∃ j, 1 < j ∧ j + 1 < (writePhaseEvents [demoSeq1]).length ∧
      (writePhaseEvents [demoSeq1])[j]? = some Event.commit :=
  (c8_commit_schedule [demoSeq1]).2.2 1
    (mkKey ['c', 'l', 'i', 'p'] 1 1 1 0) (by decide)

/-- Claim C9: implicit non-empty-sequence precondition. If any enumerated
sequence directory contains zero frame files, the builder fails in the
estimation loop (an IndexError on `frm_path_lst[0]`) before the store is
opened and before any key is written; conversely the store is only ever
opened when every enumerated sequence has at least one frame. -/
theorem c9_empty_sequence_guard :
    (∀ (d : String) (seqs : List Sequence), validDataset d = true →
      (∃ s ∈ seqs, s.frames = []) →
      (create_lmdb d seqs).2 = some BuildError.indexError
      ∧ Event.openStore ∉ (create_lmdb d seqs).1
      ∧ ∀ k, Event.put k ∉ (create_lmdb d seqs).1)
  ∧ (∀ (d : String) (seqs : List Sequence),
      Event.openStore ∈ (create_lmdb d seqs).1 → ∀ s ∈ seqs, s.frames ≠ []) := by
  constructor
  · intro d seqs hv hempty
    have hnone : (estimate seqs).2 = none := (estimate_none_iff seqs).2 hempty
    rcases he : estimate seqs with ⟨evs, r⟩
    rw [he] at hnone
    simp only at hnone
    subst hnone
    have hread : ∀ e ∈ evs, e = Event.readFrame := by
      have h0 := estimate_events_readFrame seqs
      rw [he] at h0
      exact h0
    have hcl : create_lmdb d seqs = (evs, some BuildError.indexError) := by
      simp [create_lmdb, hv, he]
    refine ⟨by rw [hcl], ?_, ?_⟩
    · rw [hcl]
      intro hmem
      have h1 := hread _ hmem
      simp at h1
    · intro k
      rw [hcl]
      intro hmem
      have h1 := hread _ hmem
      simp at h1
  · intro d seqs hmem s hs hfe
    by_cases hv : validDataset d
    · have hnone : (estimate seqs).2 = none := (estimate_none_iff seqs).2 ⟨s, hs, hfe⟩
      rcases he : estimate seqs with ⟨evs, r⟩
      rw [he] at hnone
      simp only at hnone
      subst hnone
      have hcl : create_lmdb d seqs = (evs, some BuildError.indexError) := by
        simp [create_lmdb, hv, he]
      rw [hcl] at hmem
      have hread : ∀ e ∈ evs, e = Event.readFrame := by
        have h0 := estimate_events_readFrame seqs
        rw [he] at h0
        exact h0
      have h1 := hread _ hmem
      simp at h1
    · have hv' : validDataset d = false := by simpa using hv
      have hcl : create_lmdb d seqs = ([], some BuildError.unsupportedDataset) := by
        simp [create_lmdb, hv']
      rw [hcl] at hmem
      simp at hmem

theorem c9_empty_sequence_guard_witness :
    (create_lmdb "VimeoTecoGAN" emptySeqs).2 = some BuildError.indexError
    ∧ Event.openStore ∉ (create_lmdb "VimeoTecoGAN" emptySeqs).1
    ∧ ∀ k, Event.put k ∉ (create_lmdb "VimeoTecoGAN" emptySeqs).1 :=
  c9_empty_sequence_guard.1 "VimeoTecoGAN" emptySeqs (by decide)
    ⟨⟨['e'], []⟩, by decide, rfl⟩

/-- Claim C10: implicit non-empty-key-list precondition. With an empty
metadata key list the verifier fails when drawing its random index, before
any store read (its event trace is empty); and the sampling loop only
completes without error when the key list is non-empty. -/
theorem c10_empty_keys_guard :
    (∀ (d : String) (store : List (List Char × List ℕ)) (rand : ℕ → ℕ),
      validDataset d = true →
      check_lmdb d [] store rand = ([], some VError.emptyKeyRange))
  ∧ (∀ (d : String) (keys : List (List Char)) (store : List (List Char × List ℕ))
      (rand : ℕ → ℕ), (check_lmdb d keys store rand).2 = none → keys ≠ []) := by
  constructor
  · intro d store rand hv
    exact check_lmdb_nil_keys d store rand hv
  · intro d keys store rand hdone hke
    subst hke
    by_cases hv : validDataset d
    · rw [check_lmdb_nil_keys d store rand hv] at hdone
      simp at hdone
    · have hv' : validDataset d = false := by simpa using hv
      have : check_lmdb d [] store rand = ([], some VError.unsupportedDataset) := by
        simp [check_lmdb, hv']
      rw [this] at hdone
      simp at hdone

theorem c10_empty_keys_guard_witness :
    check_lmdb "VimeoTecoGAN" [] [] (fun r => r) = ([], some VError.emptyKeyRange)
    ∧ buildKeys [demoSeq1] ≠ [] :=
  ⟨c10_empty_keys_guard.1 "VimeoTecoGAN" [] (fun r => r) (by decide),
    c10_empty_keys_guard.2 "VimeoTecoGAN" (buildKeys [demoSeq1])
      (buildStore [demoSeq1]) (fun _ => 0) (by decide)⟩

end CreateLmdb
